import Mathlib

/-
Verification of the MIDI track decoder and note-reconstruction state machine
of the repository (header src/src/midi/midi/midi.h).  The repository exposes
only declarations in the header; every function body is modelled from the
accompanying specification document, faithful to its words.  Times and
durations are modelled as integers (the wrapper types Time and Duration are
opaque value types with ordering and arithmetic), byte values and velocities
as natural numbers reduced modulo 256 at the read boundary.
-/

deriving instance DecidableEq for Except

namespace Midi

/-- Pointwise update of a table modelled as a function. Models writing one
cell of a fixed C array such as timeArray[note] or snelheden[note]. -/
def upd {α : Type} (f : Nat → α) (i : Nat) (v : α) : Nat → α :=
  fun j => if j = i then v else f j

/-- The NOTE value of midi.h lines 65-79: note number, start time, duration,
velocity and instrument, with structural equality. -/
structure NOTE where
  note_number : Nat
  start : Int
  duration : Int
  velocity : Nat
  instrument : Nat
deriving DecidableEq

/-- One decoded track event, the argument package of one EventReceiver
callback (midi.h lines 50-61).  dt is the delta-time that precedes the
event; channel-voice events carry their channel. -/
inductive Event where
  | note_on (dt ch note velocity : Nat)
  | note_off (dt ch note velocity : Nat)
  | polyphonic_key_pressure (dt ch note pressure : Nat)
  | control_change (dt ch controller value : Nat)
  | program_change (dt ch program : Nat)
  | channel_pressure (dt ch pressure : Nat)
  | pitch_wheel_change (dt ch value : Nat)
  | meta (dt ty : Nat) (data : List Nat)
  | sysex (dt : Nat) (data : List Nat)
deriving DecidableEq

/-- The state of one ChannelNoteCollector (midi.h lines 83-110): the owned
channel, the current instrument, the running time accumulator, the 128-slot
start-time table timeArray and the 128-slot velocity table snelheden, in
which the sentinel value 128 marks an inactive slot. The tables are modelled
as total functions on the note number. -/
structure ChannelNoteCollector where
  channel : Nat
  instrument : Nat
  time : Int
  timeArray : Nat → Int
  snelheden : Nat → Nat

/-- The constructor of midi.h lines 91-98: instrument 0, time 0, and every
velocity slot set to the sentinel 128 (timeArray cells are only read after
being written, so their initial content is immaterial; it is modelled as 0). -/
def initCollector (ch : Nat) : ChannelNoteCollector :=
  { channel := ch, instrument := 0, time := 0,
    timeArray := fun _ => 0, snelheden := fun _ => 128 }

/-- Modelled from the spec: every EventReceiver method of the collector first
adds the delta-time of the event to the local time accumulator before taking
any other action (spec section 4.2). -/
def advance (s : ChannelNoteCollector) (dt : Nat) : ChannelNoteCollector :=
  { s with time := s.time + (dt : Int) }

/-- Modelled from the spec: the body of ChannelNoteCollector::note_off after
the time advance (the header declares the method, the body is not in the
repository).  Only events on the own channel act; if the slot is active the
collector emits NOTE(note, start, current time minus start, stored velocity,
current instrument) and marks the slot inactive; a spurious note-off on an
inactive slot is a no-op. -/
def note_off_action (s : ChannelNoteCollector) (ch note : Nat) :
    ChannelNoteCollector × List NOTE :=
  if ch = s.channel then
    if s.snelheden note = 128 then (s, [])
    else
      ({ s with snelheden := upd s.snelheden note 128 },
       [⟨note, s.timeArray note, s.time - s.timeArray note,
         s.snelheden note, s.instrument⟩])
  else (s, [])

/-- Modelled from the spec: ChannelNoteCollector::note_off, declared at
midi.h line 102 with no body in the repository.  It advances the local time
by dt and then performs the closing action; the velocity argument of the
note-off is not used. -/
def note_off (s : ChannelNoteCollector) (dt ch note _velocity : Nat) :
    ChannelNoteCollector × List NOTE :=
  note_off_action (advance s dt) ch note

/-- Modelled from the spec: ChannelNoteCollector::note_on, declared at
midi.h line 101 with no body in the repository.  A zero velocity behaves
identically to note_off; otherwise, on the own channel, an already active
slot is first closed defensively at the current time, and then a new pending
entry is opened with the current time as start and the velocity as the
active velocity. -/
def note_on (s : ChannelNoteCollector) (dt ch note velocity : Nat) :
    ChannelNoteCollector × List NOTE :=
  if velocity = 0 then note_off s dt ch note velocity
  else if ch = s.channel then
    ({ (note_off_action (advance s dt) ch note).1 with
        timeArray := upd (note_off_action (advance s dt) ch note).1.timeArray
          note (advance s dt).time,
        snelheden := upd (note_off_action (advance s dt) ch note).1.snelheden
          note velocity },
     (note_off_action (advance s dt) ch note).2)
  else (advance s dt, [])

/-- Modelled from the spec: dispatch of one decoded event to one
ChannelNoteCollector.  program_change updates the current instrument of the
own channel; polyphonic key pressure, control change, channel pressure,
pitch wheel, meta and sysex advance time only. -/
def step (s : ChannelNoteCollector) : Event → ChannelNoteCollector × List NOTE
  | Event.note_on dt ch note vel => note_on s dt ch note vel
  | Event.note_off dt ch note vel => note_off s dt ch note vel
  | Event.program_change dt ch program =>
      let t := advance s dt
      (if ch = t.channel then { t with instrument := program } else t, [])
  | Event.polyphonic_key_pressure dt _ _ _ => (advance s dt, [])
  | Event.control_change dt _ _ _ => (advance s dt, [])
  | Event.channel_pressure dt _ _ => (advance s dt, [])
  | Event.pitch_wheel_change dt _ _ => (advance s dt, [])
  | Event.meta dt _ _ => (advance s dt, [])
  | Event.sysex dt _ => (advance s dt, [])

/-- Delivery of a whole event sequence to one collector, returning the final
state and the concatenated note emissions in order. -/
def runEvents (s : ChannelNoteCollector) :
    List Event → ChannelNoteCollector × List NOTE
  | [] => (s, [])
  | e :: es =>
    let p := step s e
    let q := runEvents p.1 es
    (q.1, p.2 ++ q.2)

/-- Modelled from the spec: EventMulticaster (midi.h lines 113-128) forwards
one event to every registered receiver in list order. -/
def stepAll (ss : List ChannelNoteCollector) (e : Event) :
    List ChannelNoteCollector × List NOTE :=
  (ss.map fun s => (step s e).1,
   (ss.map fun s => (step s e).2).flatten)

/-- Delivery of a whole event sequence through the multicaster: every event
goes to every collector, emissions are collected in receiver order within
one event and in stream order across events. -/
def multicastRun (ss : List ChannelNoteCollector) :
    List Event → List ChannelNoteCollector × List NOTE
  | [] => (ss, [])
  | e :: es =>
    let p := stepAll ss e
    let q := multicastRun p.1 es
    (q.1, p.2 ++ q.2)

/-- The 16 channel collectors of NoteCollector::create_list (midi.h lines
136-147), channels 0 to 15 in order. -/
def noteCollectorInit : List ChannelNoteCollector :=
  (List.range 16).map initCollector

/-- The error kinds of the decoder, from spec section 7. -/
inductive DecodeError where
  | MalformedVarint
  | MissingRunningStatus
  | UnsupportedEventType
  | TruncatedMeta
  | TruncatedSysex
  | TrackOverrun
deriving DecidableEq

/-- Error propagation of the decoder, written as an explicit combinator so
that every sequencing step of the parser has one shared shape. -/
def ebind {α β : Type} (x : Except DecodeError α)
    (f : α → Except DecodeError β) : Except DecodeError β :=
  match x with
  | Except.error e => Except.error e
  | Except.ok a => f a

/-- Modelled from the spec: one bounds-checked byte read of the track
decoder.  bytes is the underlying stream, len the declared payload length of
the chunk, pos the cursor; a read at or past the declared boundary fails
with TrackOverrun.  The byte is reduced modulo 256 (uint8_t). -/
def readByte (bytes : List Nat) (len pos : Nat) :
    Except DecodeError (Nat × Nat) :=
  if pos < len then
    match bytes[pos]? with
    | some b => Except.ok (b % 256, pos + 1)
    | none => Except.error DecodeError.TrackOverrun
  else Except.error DecodeError.TrackOverrun

/-- Modelled from the spec: the loop of the variable-length-quantity read.
acc accumulates value times 128 plus the low 7 bits of the byte, which
equals the shift-or accumulation of spec section 4.1 since the shifted bits
and the masked bits are disjoint; fuel counts the bytes still allowed.  When
the fuel is exhausted a fifth continuation byte would be needed and the read
fails with MalformedVarint. -/
def readVarintGo (bytes : List Nat) (len : Nat) :
    Nat → Nat → Nat → Except DecodeError (Nat × Nat)
  | _, _, 0 => Except.error DecodeError.MalformedVarint
  | pos, acc, fuel+1 =>
    match readByte bytes len pos with
    | Except.error e => Except.error e
    | Except.ok (b, p1) =>
      if b < 128 then Except.ok (acc * 128 + b % 128, p1)
      else readVarintGo bytes len p1 (acc * 128 + b % 128) fuel

/-- Modelled from the spec: a variable-length quantity of at most 4 bytes,
big-endian, 7 data bits per byte, continuation signalled by the high bit. -/
def readVarint (bytes : List Nat) (len pos : Nat) :
    Except DecodeError (Nat × Nat) :=
  readVarintGo bytes len pos 0 4

/-- Modelled from the spec: a counted byte read for meta and sysex payloads.
Crossing the declared payload boundary fails with TrackOverrun; running out
of physical stream inside the boundary fails with the supplied truncation
error. -/
def readBytesN (bytes : List Nat) (len : Nat) (endErr : DecodeError) :
    Nat → Nat → Except DecodeError (List Nat × Nat)
  | pos, 0 => Except.ok ([], pos)
  | pos, n+1 =>
    if pos < len then
      match bytes[pos]? with
      | some b =>
        ebind (readBytesN bytes len endErr (pos+1) n) (fun r =>
          Except.ok ((b % 256) :: r.1, r.2))
      | none => Except.error endErr
    else Except.error DecodeError.TrackOverrun

/-- Modelled from the spec: the two-data-byte channel-voice messages, the
event selected by the high nibble of the status (note-off 8, note-on 9,
polyphonic pressure A, control change B, pitch wheel E; the 14-bit pitch
wheel value combines the two data bytes low-first). -/
def voiceEvent (st dt d1 d2 : Nat) : Event :=
  if st / 16 = 8 then Event.note_off dt (st % 16) d1 d2
  else if st / 16 = 9 then Event.note_on dt (st % 16) d1 d2
  else if st / 16 = 10 then Event.polyphonic_key_pressure dt (st % 16) d1 d2
  else if st / 16 = 11 then Event.control_change dt (st % 16) d1 d2
  else Event.pitch_wheel_change dt (st % 16) (d1 + 128 * d2)

/-- Modelled from the spec: the body of one event after its status byte is
known (spec section 4.1 step 3).  st is the status, dt the delta-time, pos
the cursor at the first data byte.  Statuses 0x80 to 0xEF are channel-voice
messages whose high nibble selects the callback (program change and channel
pressure take one data byte, the rest two); 0xFF is a meta event with a type
byte, a VLQ length and a counted payload; 0xF0 and 0xF7 are sysex events
with a VLQ length and a counted payload; anything else is unsupported. -/
def parseBody (bytes : List Nat) (len pos st dt : Nat) :
    Except DecodeError (Event × Nat) :=
  if 128 ≤ st ∧ st ≤ 239 then
    if st / 16 = 12 ∨ st / 16 = 13 then
      ebind (readByte bytes len pos) (fun r1 =>
        Except.ok (if st / 16 = 12 then Event.program_change dt (st % 16) r1.1
          else Event.channel_pressure dt (st % 16) r1.1, r1.2))
    else
      ebind (readByte bytes len pos) (fun r1 =>
        ebind (readByte bytes len r1.2) (fun r2 =>
          Except.ok (voiceEvent st dt r1.1 r2.1, r2.2)))
  else if st = 255 then
    ebind (readByte bytes len pos) (fun r1 =>
      ebind (readVarint bytes len r1.2) (fun r2 =>
        ebind (readBytesN bytes len DecodeError.TruncatedMeta r2.2 r2.1) (fun r3 =>
          Except.ok (Event.meta dt r1.1 r3.1, r3.2))))
  else if st = 240 ∨ st = 247 then
    ebind (readVarint bytes len pos) (fun r1 =>
      ebind (readBytesN bytes len DecodeError.TruncatedSysex r1.2 r1.1) (fun r2 =>
        Except.ok (Event.sysex dt r2.1, r2.2)))
  else Except.error DecodeError.UnsupportedEventType

/-- Modelled from the spec: one whole event of read_mtrk (delta-time, then
status handling with running status, then the body).  running is the running
status, none before any status byte of the track has been seen; a data byte
in status position with no running status fails with MissingRunningStatus.
The result carries the event, the new running status and then the new
cursor. -/
def parseEvent (bytes : List Nat) (len pos : Nat) (running : Option Nat) :
    Except DecodeError ((Event × Nat) × Nat) :=
  ebind (readVarint bytes len pos) (fun r1 =>
    ebind (readByte bytes len r1.2) (fun r2 =>
      if 128 ≤ r2.1 then
        ebind (parseBody bytes len r2.2 r2.1 r1.1) (fun r3 =>
          Except.ok ((r3.1, r2.1), r3.2))
      else
        match running with
        | none => Except.error DecodeError.MissingRunningStatus
        | some st =>
          ebind (parseBody bytes len r1.2 st r1.1) (fun r3 =>
            Except.ok ((r3.1, st), r3.2))))

/-- Modelled from the spec: the event loop of read_mtrk over a declared
payload length, fuel-bounded (each event consumes at least one byte, so a
fuel of len plus one is always sufficient).  The loop stops exactly when the
cursor reaches the declared length. -/
def read_mtrk_go (bytes : List Nat) (len : Nat) :
    Nat → Option Nat → Nat → Except DecodeError (List Event)
  | pos, _, 0 =>
    if pos < len then Except.error DecodeError.TrackOverrun else Except.ok []
  | pos, running, fuel+1 =>
    if pos < len then
      match parseEvent bytes len pos running with
      | Except.error e => Except.error e
      | Except.ok ((ev, r1), p1) =>
        match read_mtrk_go bytes len p1 (some r1) fuel with
        | Except.error e => Except.error e
        | Except.ok evs => Except.ok (ev :: evs)
    else Except.ok []

/-- Modelled from the spec: read_mtrk (midi.h line 63), decoding the track
payload bytes of declared length len into the sequence of receiver callback
invocations, starting with no running status. -/
def read_mtrk (bytes : List Nat) (len : Nat) : Except DecodeError (List Event) :=
  read_mtrk_go bytes len 0 none (len + 1)

/-- Modelled from the spec: read_notes (midi.h line 164) restricted to one
track payload: the decoded events are multicast to the 16 channel
collectors of a NoteCollector and the completed note intervals are returned
in emission order; a decode error propagates unchanged. -/
def read_notes (bytes : List Nat) (len : Nat) : Except DecodeError (List NOTE) :=
  match read_mtrk bytes len with
  | Except.error e => Except.error e
  | Except.ok evs => Except.ok (multicastRun noteCollectorInit evs).2

/-- The end positions of the successive events when the track payload of
declared length len decodes successfully, mirroring the read_mtrk loop; none
when decoding fails.  Used to say that a shorter declared length cuts the
payload strictly inside one of its events. -/
def trackEnds (bytes : List Nat) (len : Nat) :
    Nat → Option Nat → Nat → Option (List Nat)
  | pos, _, 0 => if pos < len then none else some []
  | pos, running, fuel+1 =>
    if pos < len then
      match parseEvent bytes len pos running with
      | Except.error _ => none
      | Except.ok ((_, r1), p1) =>
        match trackEnds bytes len p1 (some r1) fuel with
        | none => none
        | some ps => some (p1 :: ps)
    else some []

/-- The relation between one read of the decoder under a wide declared
length and the same read under a narrower declared length len2: whenever
the wide read succeeds, the narrow read returns the same result if the end
position stays inside the narrow boundary, and fails with TrackOverrun if
the event part crosses it (the read having started inside it). -/
def Narrows {α : Type} (pos len2 : Nat)
    (big small : Except DecodeError (α × Nat)) : Prop :=
  ∀ a p2, big = Except.ok (a, p2) →
    (p2 ≤ len2 → small = Except.ok (a, p2)) ∧
    (len2 < p2 → pos ≤ len2 → small = Except.error DecodeError.TrackOverrun)

/-- The per-collector time invariant: every start-time cell is at or before
the running time accumulator.  It holds in the initial state and is
preserved by every callback. -/
def TimeInv (s : ChannelNoteCollector) : Prop :=
  ∀ n, s.timeArray n ≤ s.time

/-- The per-collector velocity invariant: every slot of snelheden holds the
sentinel 128 or a stored opening velocity between 1 and 127. -/
def VelInv (s : ChannelNoteCollector) : Prop :=
  ∀ n, s.snelheden n = 128 ∨ (1 ≤ s.snelheden n ∧ s.snelheden n ≤ 127)

/-- An event whose velocity payload, if it is a note-on, lies in the 7-bit
data-byte range of the MIDI wire format. -/
def velOk : Event → Bool
  | Event.note_on _ _ _ v => Nat.ble v 127
  | _ => true

/-- The overlapping two-channel scenario of the channel-isolation property:
the same note number is opened on channel 0 and channel 1 and closed at
different times. -/
def overlapEvs : List Event :=
  [Event.note_on 0 0 60 64, Event.note_on 10 1 60 50,
   Event.note_off 20 0 60 0, Event.note_off 5 1 60 0]

/-- The channel-0 events of overlapEvs alone, with delta-times adjusted so
that every event keeps its absolute time. -/
def overlapEvsCh0 : List Event :=
  [Event.note_on 0 0 60 64, Event.note_off 30 0 60 0]

/-- The channel-1 events of overlapEvs alone, with delta-times adjusted so
that every event keeps its absolute time. -/
def overlapEvsCh1 : List Event :=
  [Event.note_on 10 1 60 50, Event.note_off 25 1 60 0]

/-- C1: a ChannelNoteCollector on channel 0 in its initial state, given
note_on(dt 0, channel 0, note 60, velocity 64) followed by note_off(dt 96,
channel 0, note 60, velocity 64), invokes the note callback exactly once,
with NOTE(note 60, start 0, duration 96, velocity 64, instrument 0). -/
theorem C1_basic_pairing :
    (runEvents (initCollector 0)
      [Event.note_on 0 0 60 64, Event.note_off 96 0 60 64]).2 =
    [⟨60, 0, 96, 64, 0⟩] := by
  decide

/-- C7: a note_off whose note-number slot is inactive advances the local
time accumulator by dt and has no other effect: it emits no note interval
and leaves every other field of the collector unchanged. -/
theorem C7_spurious_note_off_noop
    (s : ChannelNoteCollector) (dt ch note vel : Nat)
    (h : s.snelheden note = 128) :
    note_off s dt ch note vel = ({ s with time := s.time + (dt : Int) }, []) := by
  unfold note_off note_off_action advance
  simp [h]

/-- Witness for C7 at a concrete inactive slot of the initial collector. -/
theorem C7_spurious_note_off_noop_witness :
    note_off (initCollector 0) 5 0 60 64 =
      ({ initCollector 0 with time := (initCollector 0).time + (5 : Int) }, []) :=
  C7_spurious_note_off_noop (initCollector 0) 5 0 60 64 rfl

/-- C2: a note-on with velocity zero is in every state indistinguishable
from a note-off with velocity zero, and in the stream 90 3C 40 00 3C 00 the
first event emits nothing while the zero-velocity second event closes the
first note. -/
theorem C2_zero_velocity_off :
    (∀ (s : ChannelNoteCollector) (dt ch note : Nat),
      note_on s dt ch note 0 = note_off s dt ch note 0) ∧
    read_notes [0, 144, 60, 64] 4 = Except.ok [] ∧
    read_notes [0, 144, 60, 64, 0, 60, 0] 7 = Except.ok [⟨60, 0, 0, 64, 0⟩] :=
  ⟨fun _ _ _ _ => rfl, by decide, by decide⟩

/-- Helper for C3, C9, C10: the closing action keeps channel, instrument,
time and start-time table unchanged. -/
theorem note_off_action_fields (s : ChannelNoteCollector) (ch note : Nat) :
    (note_off_action s ch note).1.channel = s.channel ∧
    (note_off_action s ch note).1.instrument = s.instrument ∧
    (note_off_action s ch note).1.time = s.time ∧
    (note_off_action s ch note).1.timeArray = s.timeArray := by
  unfold note_off_action
  split
  · split <;> exact ⟨rfl, rfl, rfl, rfl⟩
  · exact ⟨rfl, rfl, rfl, rfl⟩

/-- C3: a note-on with nonzero velocity on an already active slot first
emits the note interval closing the pending note at the current time with
the stored velocity, then opens a new pending entry at the current time
with the new velocity; concretely two note-ons for note 60 with a later off
produce two note intervals, the first closed at the time of the second
note-on. -/
theorem C3_defensive_overlap :
    (∀ (s : ChannelNoteCollector) (dt ch note vel : Nat),
      ch = s.channel → s.snelheden note ≠ 128 → vel ≠ 0 →
      (note_on s dt ch note vel).2 =
        [⟨note, s.timeArray note, s.time + (dt : Int) - s.timeArray note,
          s.snelheden note, s.instrument⟩] ∧
      (note_on s dt ch note vel).1.snelheden note = vel ∧
      (note_on s dt ch note vel).1.timeArray note = s.time + (dt : Int) ∧
      (note_on s dt ch note vel).1.time = s.time + (dt : Int)) ∧
    (runEvents (initCollector 0)
      [Event.note_on 0 0 60 64, Event.note_on 10 0 60 70,
       Event.note_off 5 0 60 0]).2 =
      [⟨60, 0, 10, 64, 0⟩, ⟨60, 10, 5, 70, 0⟩] := by
  constructor
  · intro s dt ch note vel hch hact hvel
    unfold note_on note_off_action advance upd
    simp [hch, hact, hvel]
  · decide

/-- Witness for C3: the collector just after opening note 60 has an active
slot, and a second note-on closes it at the current time. -/
theorem C3_defensive_overlap_witness :
    (note_on (runEvents (initCollector 0) [Event.note_on 0 0 60 64]).1
        5 0 60 70).2 =
      [⟨60, (runEvents (initCollector 0) [Event.note_on 0 0 60 64]).1.timeArray 60,
        (runEvents (initCollector 0) [Event.note_on 0 0 60 64]).1.time + (5 : Int) -
          (runEvents (initCollector 0) [Event.note_on 0 0 60 64]).1.timeArray 60,
        (runEvents (initCollector 0) [Event.note_on 0 0 60 64]).1.snelheden 60,
        (runEvents (initCollector 0) [Event.note_on 0 0 60 64]).1.instrument⟩] ∧
    (note_on (runEvents (initCollector 0) [Event.note_on 0 0 60 64]).1
        5 0 60 70).1.snelheden 60 = 70 ∧
    (note_on (runEvents (initCollector 0) [Event.note_on 0 0 60 64]).1
        5 0 60 70).1.timeArray 60 =
      (runEvents (initCollector 0) [Event.note_on 0 0 60 64]).1.time + (5 : Int) ∧
    (note_on (runEvents (initCollector 0) [Event.note_on 0 0 60 64]).1
        5 0 60 70).1.time =
      (runEvents (initCollector 0) [Event.note_on 0 0 60 64]).1.time + (5 : Int) :=
  C3_defensive_overlap.1 (runEvents (initCollector 0) [Event.note_on 0 0 60 64]).1
    5 0 60 70 (by decide) (by decide) (by decide)

/-- Helper for C8: in the multicast run every collector evolves exactly as
it would alone on the same event sequence. -/
theorem multicast_state_isolated (evs : List Event) :
    ∀ (ss : List ChannelNoteCollector) (i : Nat),
      ((multicastRun ss evs).1)[i]? = (ss[i]?).map fun s => (runEvents s evs).1 := by
  induction evs with
  | nil =>
    intro ss i
    cases h : ss[i]? <;> simp [multicastRun, runEvents, h]
  | cons e es ih =>
    intro ss i
    have h1 : (multicastRun ss (e :: es)).1 = (multicastRun (stepAll ss e).1 es).1 := by
      simp [multicastRun]
    rw [h1, ih]
    simp only [stepAll, List.getElem?_map, Option.map_map]
    cases h : ss[i]? <;> simp [h, runEvents, Function.comp]

/-- C8: channel isolation.  In the multicast over any collector list, each
collector reaches exactly the state its own independent run reaches, and in
the overlapping two-channel scenario each channel emits exactly the
intervals its own events alone produce, at their absolute times. -/
theorem C8_channel_isolation :
    (∀ (ss : List ChannelNoteCollector) (evs : List Event) (i : Nat),
      ((multicastRun ss evs).1)[i]? = (ss[i]?).map fun s => (runEvents s evs).1) ∧
    (multicastRun noteCollectorInit overlapEvs).2 =
      [⟨60, 0, 30, 64, 0⟩, ⟨60, 10, 25, 50, 0⟩] ∧
    (runEvents (initCollector 0) overlapEvsCh0).2 = [⟨60, 0, 30, 64, 0⟩] ∧
    (runEvents (initCollector 1) overlapEvsCh1).2 = [⟨60, 10, 25, 50, 0⟩] :=
  ⟨fun ss evs i => multicast_state_isolated evs ss i, by decide, by decide, by decide⟩

/-- Helper for C9: advancing time preserves the time invariant. -/
theorem advance_timeInv {s : ChannelNoteCollector} (dt : Nat) (h : TimeInv s) :
    TimeInv (advance s dt) := by
  intro n
  exact le_trans (h n) (le_add_of_nonneg_right (Int.natCast_nonneg dt))

/-- Helper for C9: time never decreases under advance. -/
theorem advance_time_le (s : ChannelNoteCollector) (dt : Nat) :
    s.time ≤ (advance s dt).time :=
  le_add_of_nonneg_right (Int.natCast_nonneg dt)

/-- Helper for C9: the closing action preserves the time invariant, keeps
time, and emits only intervals of nonnegative duration. -/
theorem note_off_action_timeInv {s : ChannelNoteCollector} (ch note : Nat)
    (h : TimeInv s) :
    TimeInv (note_off_action s ch note).1 ∧
    (note_off_action s ch note).1.time = s.time ∧
    ∀ nt ∈ (note_off_action s ch note).2, 0 ≤ nt.duration := by
  unfold note_off_action
  split
  · split
    · exact ⟨h, rfl, by simp⟩
    · refine ⟨fun n => h n, rfl, ?_⟩
      intro nt hnt
      simp only [List.mem_singleton] at hnt
      subst hnt
      exact sub_nonneg.mpr (h note)
  · exact ⟨h, rfl, by simp⟩

/-- Helper for C9: note_off preserves the time invariant, advances time by
dt, and emits only intervals of nonnegative duration. -/
theorem note_off_timeInv {s : ChannelNoteCollector} (dt ch note vel : Nat)
    (h : TimeInv s) :
    TimeInv (note_off s dt ch note vel).1 ∧
    s.time ≤ (note_off s dt ch note vel).1.time ∧
    ∀ nt ∈ (note_off s dt ch note vel).2, 0 ≤ nt.duration := by
  have h1 := advance_timeInv dt h
  have h2 := note_off_action_timeInv ch note h1
  refine ⟨h2.1, ?_, h2.2.2⟩
  show s.time ≤ (note_off_action (advance s dt) ch note).1.time
  rw [h2.2.1]
  exact advance_time_le s dt

/-- Helper for C9: note_on preserves the time invariant, never decreases
time, and emits only intervals of nonnegative duration. -/
theorem note_on_timeInv {s : ChannelNoteCollector} (dt ch note vel : Nat)
    (h : TimeInv s) :
    TimeInv (note_on s dt ch note vel).1 ∧
    s.time ≤ (note_on s dt ch note vel).1.time ∧
    ∀ nt ∈ (note_on s dt ch note vel).2, 0 ≤ nt.duration := by
  by_cases hv : vel = 0
  · unfold note_on
    rw [if_pos hv]
    exact note_off_timeInv dt ch note vel h
  · unfold note_on
    rw [if_neg hv]
    by_cases hch : ch = s.channel
    · rw [if_pos hch]
      have h1 := advance_timeInv dt h
      have h2 := note_off_action_timeInv ch note h1
      refine ⟨?_, ?_, h2.2.2⟩
      · intro n
        simp only [upd]
        by_cases hn : n = note
        · rw [if_pos hn, h2.2.1]
        · rw [if_neg hn]
          exact h2.1 n
      · show s.time ≤ (note_off_action (advance s dt) ch note).1.time
        rw [h2.2.1]
        exact advance_time_le s dt
    · rw [if_neg hch]
      exact ⟨advance_timeInv dt h, advance_time_le s dt, by simp⟩

/-- Helper for C9: one step of any event preserves the time invariant,
never decreases time, and emits only intervals of nonnegative duration. -/
theorem step_timeInv (s : ChannelNoteCollector) (e : Event) (h : TimeInv s) :
    TimeInv (step s e).1 ∧ s.time ≤ (step s e).1.time ∧
    ∀ nt ∈ (step s e).2, 0 ≤ nt.duration := by
  cases e with
  | note_on dt ch note vel => exact note_on_timeInv dt ch note vel h
  | note_off dt ch note vel => exact note_off_timeInv dt ch note vel h
  | program_change dt ch program =>
    have heq : step s (Event.program_change dt ch program) =
        ((if ch = (advance s dt).channel
          then { advance s dt with instrument := program }
          else advance s dt), []) := rfl
    rw [heq]
    by_cases hch : ch = (advance s dt).channel
    · rw [if_pos hch]
      exact ⟨fun n => advance_timeInv dt h n, advance_time_le s dt, by simp⟩
    · rw [if_neg hch]
      exact ⟨advance_timeInv dt h, advance_time_le s dt, by simp⟩
  | polyphonic_key_pressure dt ch note pressure =>
    exact ⟨advance_timeInv dt h, advance_time_le s dt, by simp [step]⟩
  | control_change dt ch controller value =>
    exact ⟨advance_timeInv dt h, advance_time_le s dt, by simp [step]⟩
  | channel_pressure dt ch pressure =>
    exact ⟨advance_timeInv dt h, advance_time_le s dt, by simp [step]⟩
  | pitch_wheel_change dt ch value =>
    exact ⟨advance_timeInv dt h, advance_time_le s dt, by simp [step]⟩
  | meta dt ty data =>
    exact ⟨advance_timeInv dt h, advance_time_le s dt, by simp [step]⟩
  | sysex dt data =>
    exact ⟨advance_timeInv dt h, advance_time_le s dt, by simp [step]⟩

/-- C9: from any state satisfying the time invariant, the local time
accumulator is monotonically non-decreasing across any sequence of
callbacks, the invariant is preserved, and every emitted note interval has
nonnegative duration, because its close time is at or after its open time. -/
theorem C9_time_monotone :
    ∀ (s : ChannelNoteCollector) (evs : List Event), TimeInv s →
      TimeInv (runEvents s evs).1 ∧ s.time ≤ (runEvents s evs).1.time ∧
      ∀ nt ∈ (runEvents s evs).2, 0 ≤ nt.duration := by
  intro s evs
  induction evs generalizing s with
  | nil => intro h; exact ⟨h, le_refl _, by simp [runEvents]⟩
  | cons e es ih =>
    intro h
    have h1 := step_timeInv s e h
    have h2 := ih (step s e).1 h1.1
    refine ⟨h2.1, le_trans h1.2.1 h2.2.1, ?_⟩
    intro nt hnt
    have hm : nt ∈ (step s e).2 ++ (runEvents (step s e).1 es).2 := hnt
    rcases List.mem_append.mp hm with hl | hr
    · exact h1.2.2 nt hl
    · exact h2.2.2 nt hr

/-- Witness for C9: the initial collector satisfies the time invariant and
the concrete basic-pairing run keeps it, never decreases time, and emits
only nonnegative durations. -/
theorem C9_time_monotone_witness :
    TimeInv (runEvents (initCollector 0)
      [Event.note_on 0 0 60 64, Event.note_off 96 0 60 64]).1 ∧
    (initCollector 0).time ≤ (runEvents (initCollector 0)
      [Event.note_on 0 0 60 64, Event.note_off 96 0 60 64]).1.time ∧
    ∀ nt ∈ (runEvents (initCollector 0)
      [Event.note_on 0 0 60 64, Event.note_off 96 0 60 64]).2, 0 ≤ nt.duration :=
  C9_time_monotone (initCollector 0)
    [Event.note_on 0 0 60 64, Event.note_off 96 0 60 64] (fun _ => le_refl 0)

/-- Helper for C10: the closing action preserves the velocity invariant and
emits only velocities between 1 and 127. -/
theorem note_off_action_velInv {s : ChannelNoteCollector} (ch note : Nat)
    (h : VelInv s) :
    VelInv (note_off_action s ch note).1 ∧
    ∀ nt ∈ (note_off_action s ch note).2,
      1 ≤ nt.velocity ∧ nt.velocity ≤ 127 := by
  unfold note_off_action
  by_cases h1 : ch = s.channel
  · rw [if_pos h1]
    by_cases h2 : s.snelheden note = 128
    · rw [if_pos h2]
      exact ⟨h, by simp⟩
    · rw [if_neg h2]
      constructor
      · intro n
        simp only [upd]
        by_cases hn : n = note
        · rw [if_pos hn]
          exact Or.inl rfl
        · rw [if_neg hn]
          exact h n
      · intro nt hnt
        simp only [List.mem_singleton] at hnt
        subst hnt
        rcases h note with hc | hr
        · exact absurd hc h2
        · exact hr
  · rw [if_neg h1]
    exact ⟨h, by simp⟩

/-- Helper for C10: note_off preserves the velocity invariant and emits only
velocities between 1 and 127. -/
theorem note_off_velInv {s : ChannelNoteCollector} (dt ch note vel : Nat)
    (h : VelInv s) :
    VelInv (note_off s dt ch note vel).1 ∧
    ∀ nt ∈ (note_off s dt ch note vel).2,
      1 ≤ nt.velocity ∧ nt.velocity ≤ 127 :=
  note_off_action_velInv ch note (show VelInv (advance s dt) from fun n => h n)

/-- Helper for C10: note_on with a velocity in the 7-bit range preserves the
velocity invariant and emits only velocities between 1 and 127. -/
theorem note_on_velInv {s : ChannelNoteCollector} (dt ch note vel : Nat)
    (h : VelInv s) (hv127 : vel ≤ 127) :
    VelInv (note_on s dt ch note vel).1 ∧
    ∀ nt ∈ (note_on s dt ch note vel).2,
      1 ≤ nt.velocity ∧ nt.velocity ≤ 127 := by
  by_cases hv : vel = 0
  · unfold note_on
    rw [if_pos hv]
    exact note_off_velInv dt ch note vel h
  · unfold note_on
    rw [if_neg hv]
    by_cases hch : ch = s.channel
    · rw [if_pos hch]
      have h2 := note_off_action_velInv ch note (show VelInv (advance s dt) from fun n => h n)
      refine ⟨?_, h2.2⟩
      intro n
      simp only [upd]
      by_cases hn : n = note
      · rw [if_pos hn]
        exact Or.inr ⟨Nat.one_le_iff_ne_zero.mpr hv, hv127⟩
      · rw [if_neg hn]
        exact h2.1 n
    · rw [if_neg hch]
      exact ⟨fun n => h n, by simp⟩

/-- Helper for C10: one step of any event with in-range velocity preserves
the velocity invariant and emits only velocities between 1 and 127. -/
theorem step_velInv (s : ChannelNoteCollector) (e : Event) (h : VelInv s)
    (hok : velOk e = true) :
    VelInv (step s e).1 ∧
    ∀ nt ∈ (step s e).2, 1 ≤ nt.velocity ∧ nt.velocity ≤ 127 := by
  cases e with
  | note_on dt ch note vel =>
    exact note_on_velInv dt ch note vel h (Nat.le_of_ble_eq_true hok)
  | note_off dt ch note vel => exact note_off_velInv dt ch note vel h
  | program_change dt ch program =>
    have heq : step s (Event.program_change dt ch program) =
        ((if ch = (advance s dt).channel
          then { advance s dt with instrument := program }
          else advance s dt), []) := rfl
    rw [heq]
    by_cases hch : ch = (advance s dt).channel
    · rw [if_pos hch]
      exact ⟨fun n => h n, by simp⟩
    · rw [if_neg hch]
      exact ⟨fun n => h n, by simp⟩
  | polyphonic_key_pressure dt ch note pressure => exact ⟨fun n => h n, by simp [step]⟩
  | control_change dt ch controller value => exact ⟨fun n => h n, by simp [step]⟩
  | channel_pressure dt ch pressure => exact ⟨fun n => h n, by simp [step]⟩
  | pitch_wheel_change dt ch value => exact ⟨fun n => h n, by simp [step]⟩
  | meta dt ty data => exact ⟨fun n => h n, by simp [step]⟩
  | sysex dt data => exact ⟨fun n => h n, by simp [step]⟩

/-- C10: the initial collector has every slot at the sentinel 128; from any
state satisfying the velocity invariant, a run of events whose note-on
velocities lie in the 7-bit data range keeps every slot at the sentinel or
at a stored opening velocity between 1 and 127, and every emitted note
interval carries a velocity between 1 and 127, never 0 and never 128. -/
theorem C10_velocity_invariant :
    (∀ ch, VelInv (initCollector ch)) ∧
    ∀ (s : ChannelNoteCollector) (evs : List Event), VelInv s →
      (∀ e ∈ evs, velOk e = true) →
      VelInv (runEvents s evs).1 ∧
      ∀ nt ∈ (runEvents s evs).2, 1 ≤ nt.velocity ∧ nt.velocity ≤ 127 := by
  constructor
  · intro ch n
    exact Or.inl rfl
  · intro s evs
    induction evs generalizing s with
    | nil => intro h _; exact ⟨h, by simp [runEvents]⟩
    | cons e es ih =>
      intro h hok
      have h1 := step_velInv s e h (hok e (List.mem_cons_self e es))
      have h2 := ih (step s e).1 h1.1 (fun x hx => hok x (List.mem_cons_of_mem e hx))
      refine ⟨h2.1, ?_⟩
      intro nt hnt
      have hm : nt ∈ (step s e).2 ++ (runEvents (step s e).1 es).2 := hnt
      rcases List.mem_append.mp hm with hl | hr
      · exact h1.2 nt hl
      · exact h2.2 nt hr

/-- Witness for C10: the concrete basic-pairing run from the initial state,
whose single emitted interval carries velocity 64. -/
theorem C10_velocity_invariant_witness :
    VelInv (runEvents (initCollector 0)
      [Event.note_on 0 0 60 64, Event.note_off 96 0 60 64]).1 ∧
    ∀ nt ∈ (runEvents (initCollector 0)
      [Event.note_on 0 0 60 64, Event.note_off 96 0 60 64]).2,
      1 ≤ nt.velocity ∧ nt.velocity ≤ 127 :=
  C10_velocity_invariant.2 (initCollector 0)
    [Event.note_on 0 0 60 64, Event.note_off 96 0 60 64]
    (fun _ => Or.inl rfl) (by decide)

/-- Helper for C4: one continuation step of the VLQ loop. -/
theorem readVarintGo_cont {bytes : List Nat} {len pos acc fuel b p1 : Nat}
    (h : readByte bytes len pos = Except.ok (b, p1)) (hb : ¬ b < 128) :
    readVarintGo bytes len pos acc (fuel + 1) =
      readVarintGo bytes len p1 (acc * 128 + b % 128) fuel := by
  simp only [readVarintGo, h, if_neg hb]

/-- C4: the VLQ delta-time decodings 0x00, 0x7F, 0x81 0x00 and 0xFF 0x7F
yield exactly 0, 127, 128 and 16383, and any input whose first five bytes
all carry the continuation bit fails with MalformedVarint (the read stops
after four continuation bytes, before a fifth is even consumed). -/
theorem C4_vlq_decode :
    readVarint [0] 1 0 = Except.ok (0, 1) ∧
    readVarint [127] 1 0 = Except.ok (127, 1) ∧
    readVarint [129, 0] 2 0 = Except.ok (128, 2) ∧
    readVarint [255, 127] 2 0 = Except.ok (16383, 2) ∧
    ∀ (b1 b2 b3 b4 b5 : Nat) (rest : List Nat) (len : Nat),
      128 ≤ b1 → b1 < 256 → 128 ≤ b2 → b2 < 256 →
      128 ≤ b3 → b3 < 256 → 128 ≤ b4 → b4 < 256 →
      128 ≤ b5 → b5 < 256 → 4 ≤ len →
      readVarint (b1 :: b2 :: b3 :: b4 :: b5 :: rest) len 0 =
        Except.error DecodeError.MalformedVarint := by
  refine ⟨by decide, by decide, by decide, by decide, ?_⟩
  intro b1 b2 b3 b4 b5 rest len h1 h1l h2 h2l h3 h3l h4 h4l h5 h5l hlen
  have n1 : ¬ b1 < 128 := by omega
  have n2 : ¬ b2 < 128 := by omega
  have n3 : ¬ b3 < 128 := by omega
  have n4 : ¬ b4 < 128 := by omega
  have e0 : readByte (b1 :: b2 :: b3 :: b4 :: b5 :: rest) len 0 = Except.ok (b1, 1) := by
    unfold readByte
    rw [if_pos (show (0:Nat) < len by omega)]
    simp [show (b1 :: b2 :: b3 :: b4 :: b5 :: rest)[0]? = some b1 from rfl,
      Nat.mod_eq_of_lt h1l]
  have e1 : readByte (b1 :: b2 :: b3 :: b4 :: b5 :: rest) len 1 = Except.ok (b2, 2) := by
    unfold readByte
    rw [if_pos (show (1:Nat) < len by omega)]
    simp [show (b1 :: b2 :: b3 :: b4 :: b5 :: rest)[1]? = some b2 from rfl,
      Nat.mod_eq_of_lt h2l]
  have e2 : readByte (b1 :: b2 :: b3 :: b4 :: b5 :: rest) len 2 = Except.ok (b3, 3) := by
    unfold readByte
    rw [if_pos (show (2:Nat) < len by omega)]
    simp [show (b1 :: b2 :: b3 :: b4 :: b5 :: rest)[2]? = some b3 from rfl,
      Nat.mod_eq_of_lt h3l]
  have e3 : readByte (b1 :: b2 :: b3 :: b4 :: b5 :: rest) len 3 = Except.ok (b4, 4) := by
    unfold readByte
    rw [if_pos (show (3:Nat) < len by omega)]
    simp [show (b1 :: b2 :: b3 :: b4 :: b5 :: rest)[3]? = some b4 from rfl,
      Nat.mod_eq_of_lt h4l]
  show readVarintGo (b1 :: b2 :: b3 :: b4 :: b5 :: rest) len 0 0 4 =
    Except.error DecodeError.MalformedVarint
  rw [readVarintGo_cont e0 n1, readVarintGo_cont e1 n2,
      readVarintGo_cont e2 n3, readVarintGo_cont e3 n4]
  rfl

/-- Witness for C4: the all-continuation five-byte sequence FF FF FF FF FF
fails with MalformedVarint. -/
theorem C4_vlq_decode_witness :
    readVarint [255, 255, 255, 255, 255] 5 0 =
      Except.error DecodeError.MalformedVarint :=
  C4_vlq_decode.2.2.2.2 255 255 255 255 255 [] 5
    (by decide) (by decide) (by decide) (by decide) (by decide)
    (by decide) (by decide) (by decide) (by decide) (by decide) (by decide)

/-- C5: the stream 90 3C 40 followed by delta 0x60 and the bare data bytes
3E 50 decodes its second event through running status as a note-on on the
same channel with note 0x3E and velocity 0x50; and a track whose first
event starts with a data byte before any status byte has been seen fails
with MissingRunningStatus. -/
theorem C5_running_status :
    read_mtrk [0, 144, 60, 64, 96, 62, 80] 7 =
      Except.ok [Event.note_on 0 0 60 64, Event.note_on 96 0 62 80] ∧
    ∀ (d b : Nat) (rest : List Nat) (len : Nat),
      d < 128 → b < 128 → 2 ≤ len →
      read_mtrk (d :: b :: rest) len =
        Except.error DecodeError.MissingRunningStatus := by
  refine ⟨by decide, ?_⟩
  intro d b rest len hd hb hlen
  have e0 : readByte (d :: b :: rest) len 0 = Except.ok (d, 1) := by
    unfold readByte
    rw [if_pos (show (0:Nat) < len by omega)]
    simp [show (d :: b :: rest)[0]? = some d from rfl,
      Nat.mod_eq_of_lt (show d < 256 by omega)]
  have e1 : readByte (d :: b :: rest) len 1 = Except.ok (b, 2) := by
    unfold readByte
    rw [if_pos (show (1:Nat) < len by omega)]
    simp [List.getElem?_cons_succ, List.getElem?_cons_zero,
      Nat.mod_eq_of_lt (show b < 256 by omega)]
  have hvar : readVarint (d :: b :: rest) len 0 = Except.ok (d, 1) := by
    show readVarintGo (d :: b :: rest) len 0 0 (3 + 1) = Except.ok (d, 1)
    simp only [readVarintGo, e0, if_pos hd]
    simp [Nat.mod_eq_of_lt hd]
  have hpe : parseEvent (d :: b :: rest) len 0 none =
      Except.error DecodeError.MissingRunningStatus := by
    simp only [parseEvent, ebind, hvar, e1]
    rw [if_neg (show ¬ 128 ≤ b by omega)]
  show read_mtrk_go (d :: b :: rest) len 0 none (len + 1) =
    Except.error DecodeError.MissingRunningStatus
  simp only [read_mtrk_go]
  rw [if_pos (show (0:Nat) < len by omega)]
  simp only [hpe]

/-- Witness for C5: a bare data byte at the start of a track with no prior
status byte fails with MissingRunningStatus. -/
theorem C5_running_status_witness :
    read_mtrk [0, 60] 2 = Except.error DecodeError.MissingRunningStatus :=
  C5_running_status.2 0 60 [] 2 (by decide) (by decide) (by decide)

/-- Helper for C6: a successful ebind factors through a successful first
component. -/
theorem ebind_ok_elim {α β : Type} {R : Except DecodeError (α × Nat)}
    {F : α × Nat → Except DecodeError β} {out : β}
    (h : ebind R F = Except.ok out) :
    ∃ a p, R = Except.ok (a, p) ∧ F (a, p) = Except.ok out := by
  cases hR : R with
  | error e =>
    rw [hR] at h
    simp [ebind] at h
  | ok r =>
    rw [hR] at h
    simp only [ebind] at h
    exact ⟨r.1, r.2, rfl, h⟩

/-- Helper for C6: anatomy of a successful bounds-checked byte read. -/
theorem readByte_ok_elim {bytes : List Nat} {len pos a p2 : Nat}
    (h : readByte bytes len pos = Except.ok (a, p2)) :
    pos < len ∧ p2 = pos + 1 ∧ ∃ b, bytes[pos]? = some b ∧ a = b % 256 := by
  unfold readByte at h
  split at h
  next hlt =>
    split at h
    next b hby =>
      injection h with h'
      have ha := congrArg Prod.fst h'
      have hp := congrArg Prod.snd h'
      simp at ha hp
      exact ⟨hlt, hp.symm, b, hby, ha.symm⟩
    next hby => simp at h
  next hge => simp at h

/-- Helper for C6: an errored read narrows to anything. -/
theorem narrows_error {α : Type} {pos len2 : Nat} (e : DecodeError)
    (small : Except DecodeError (α × Nat)) :
    Narrows pos len2 (Except.error e) small := by
  intro a p h
  exact absurd h (by simp)

/-- Helper for C6: a pure result ending at its own start position narrows
to itself. -/
theorem narrows_ok_self {α : Type} {len2 : Nat} (x : α) (p : Nat) :
    Narrows p len2 (Except.ok (x, p)) (Except.ok (x, p)) := by
  intro a q h
  injection h with h'
  have hp := congrArg Prod.snd h'
  simp at hp
  exact ⟨fun _ => by rw [h'], fun hcross hple => absurd hcross (by omega)⟩

/-- Helper for C6: a narrowing relation stays valid when its recorded start
position moves right. -/
theorem narrows_mono_pos {α : Type} {pos pos2 len2 : Nat}
    {big small : Except DecodeError (α × Nat)}
    (h : Narrows pos len2 big small) (hp : pos ≤ pos2) :
    Narrows pos2 len2 big small := by
  intro a p2 hok
  exact ⟨(h a p2 hok).1, fun hc hp2 => (h a p2 hok).2 hc (by omega)⟩

/-- Helper for C6: narrowing composes through ebind when the first
component narrows and the second component narrows from the position where
the first one ended and never moves the cursor left. -/
theorem narrows_ebind {α β : Type} {pos len2 : Nat}
    {R R2 : Except DecodeError (α × Nat)}
    {F F2 : α × Nat → Except DecodeError (β × Nat)}
    (hR : Narrows pos len2 R R2)
    (hFmono : ∀ a p b q, R = Except.ok (a, p) → F (a, p) = Except.ok (b, q) → p ≤ q)
    (hF : ∀ a p, R = Except.ok (a, p) → Narrows p len2 (F (a, p)) (F2 (a, p))) :
    Narrows pos len2 (ebind R F) (ebind R2 F2) := by
  intro b q hbig
  obtain ⟨a, p, hRok, hFok⟩ := ebind_ok_elim hbig
  have hpq := hFmono a p b q hRok hFok
  have hNF := hF a p hRok b q hFok
  constructor
  · intro hqle
    have hR2 := (hR a p hRok).1 (by omega)
    show ebind R2 F2 = Except.ok (b, q)
    rw [hR2]
    simp only [ebind]
    exact hNF.1 hqle
  · intro hcross hposle
    by_cases hple : p ≤ len2
    · have hR2 := (hR a p hRok).1 hple
      show ebind R2 F2 = Except.error DecodeError.TrackOverrun
      rw [hR2]
      simp only [ebind]
      exact hNF.2 hcross hple
    · have hR2 := (hR a p hRok).2 (by omega) hposle
      show ebind R2 F2 = Except.error DecodeError.TrackOverrun
      rw [hR2]
      simp only [ebind]

/-- Helper for C6: a byte read under a narrower declared length. -/
theorem narrows_readByte {bytes : List Nat} {len len2 pos : Nat}
    (_hle : len2 ≤ len) :
    Narrows pos len2 (readByte bytes len pos) (readByte bytes len2 pos) := by
  intro a p2 h
  obtain ⟨hlt, hp, b, hby, hab⟩ := readByte_ok_elim h
  constructor
  · intro hple
    have hlt2 : pos < len2 := by omega
    unfold readByte
    rw [if_pos hlt2]
    simp only [hby]
    rw [hab, hp]
  · intro hcross hposle
    have hnlt : ¬ pos < len2 := by omega
    unfold readByte
    rw [if_neg hnlt]

/-- Helper for C6: the VLQ loop strictly advances the cursor. -/
theorem readVarintGo_mono {bytes : List Nat} {len : Nat} :
    ∀ (fuel pos acc v p2 : Nat),
      readVarintGo bytes len pos acc fuel = Except.ok (v, p2) → pos < p2 := by
  intro fuel
  induction fuel with
  | zero =>
    intro pos acc v p2 h
    simp [readVarintGo] at h
  | succ f ih =>
    intro pos acc v p2 h
    cases hrb : readByte bytes len pos with
    | error e =>
      simp only [readVarintGo, hrb] at h
      exact absurd h (by simp)
    | ok r =>
      obtain ⟨b, p1⟩ := r
      have hp1 : p1 = pos + 1 := (readByte_ok_elim hrb).2.1
      simp only [readVarintGo, hrb] at h
      by_cases hb : b < 128
      · rw [if_pos hb] at h
        injection h with h'
        have hp := congrArg Prod.snd h'
        simp at hp
        omega
      · rw [if_neg hb] at h
        have := ih p1 (acc * 128 + b % 128) v p2 h
        omega

/-- Helper for C6: a VLQ read strictly advances the cursor. -/
theorem readVarint_mono {bytes : List Nat} {len pos v p2 : Nat}
    (h : readVarint bytes len pos = Except.ok (v, p2)) : pos < p2 :=
  readVarintGo_mono 4 pos 0 v p2 h

/-- Helper for C6: the VLQ loop under a narrower declared length. -/
theorem readVarintGo_narrows {bytes : List Nat} {len len2 : Nat}
    (hle : len2 ≤ len) :
    ∀ (fuel pos acc : Nat),
      Narrows pos len2 (readVarintGo bytes len pos acc fuel)
        (readVarintGo bytes len2 pos acc fuel) := by
  intro fuel
  induction fuel with
  | zero =>
    intro pos acc a p2 h
    simp [readVarintGo] at h
  | succ f ih =>
    intro pos acc a p2 h
    cases hrb : readByte bytes len pos with
    | error e =>
      simp only [readVarintGo, hrb] at h
      exact absurd h (by simp)
    | ok r =>
      obtain ⟨b, p1⟩ := r
      have hp1 : p1 = pos + 1 := (readByte_ok_elim hrb).2.1
      have hnbr := narrows_readByte hle b p1 hrb
      simp only [readVarintGo, hrb] at h
      by_cases hb : b < 128
      · rw [if_pos hb] at h
        injection h with h'
        have hv := congrArg Prod.fst h'
        have hp := congrArg Prod.snd h'
        simp at hv hp
        constructor
        · intro hple
          have h1 := hnbr.1 (by omega)
          simp only [readVarintGo, h1, if_pos hb]
          rw [hv, hp]
        · intro hcross hposle
          have h2 := hnbr.2 (by omega) hposle
          simp only [readVarintGo, h2]
      · rw [if_neg hb] at h
        have hmono := readVarintGo_mono f p1 (acc * 128 + b % 128) a p2 h
        have hihn := ih p1 (acc * 128 + b % 128) a p2 h
        constructor
        · intro hple
          have h1 := hnbr.1 (by omega)
          simp only [readVarintGo, h1, if_neg hb]
          exact hihn.1 hple
        · intro hcross hposle
          by_cases hp1le : p1 ≤ len2
          · have h1 := hnbr.1 hp1le
            simp only [readVarintGo, h1, if_neg hb]
            exact hihn.2 hcross hp1le
          · have h2 := hnbr.2 (by omega) hposle
            simp only [readVarintGo, h2]

/-- Helper for C6: a VLQ read under a narrower declared length. -/
theorem readVarint_narrows {bytes : List Nat} {len len2 : Nat}
    (hle : len2 ≤ len) (pos : Nat) :
    Narrows pos len2 (readVarint bytes len pos) (readVarint bytes len2 pos) :=
  readVarintGo_narrows hle 4 pos 0

/-- Helper for C6: a counted read never moves the cursor left. -/
theorem readBytesN_mono {bytes : List Nat} {len : Nat} {err : DecodeError} :
    ∀ (n pos : Nat) {data : List Nat} {p2 : Nat},
      readBytesN bytes len err pos n = Except.ok (data, p2) → pos ≤ p2 := by
  intro n
  induction n with
  | zero =>
    intro pos data p2 h
    simp only [readBytesN] at h
    injection h with h'
    have hp := congrArg Prod.snd h'
    simp at hp
    omega
  | succ m ih =>
    intro pos data p2 h
    simp only [readBytesN] at h
    split at h
    next hlt =>
      cases hby : bytes[pos]? with
      | some b =>
        simp only [hby] at h
        obtain ⟨r1, pr, hrec, hpure⟩ := ebind_ok_elim h
        injection hpure with h'
        have hp := congrArg Prod.snd h'
        simp at hp
        have := ih (pos + 1) hrec
        omega
      | none =>
        simp only [hby] at h
        exact absurd h (by simp)
    next hge => exact absurd h (by simp)

/-- Helper for C6: a counted read under a narrower declared length. -/
theorem readBytesN_narrows {bytes : List Nat} {len len2 : Nat}
    {err : DecodeError} (_hle : len2 ≤ len) :
    ∀ (n pos : Nat),
      Narrows pos len2 (readBytesN bytes len err pos n)
        (readBytesN bytes len2 err pos n) := by
  intro n
  induction n with
  | zero =>
    intro pos a p2 h
    simp only [readBytesN] at h
    injection h with h'
    have ha := congrArg Prod.fst h'
    have hp := congrArg Prod.snd h'
    simp at ha hp
    constructor
    · intro hple
      simp only [readBytesN]
      rw [ha, hp]
    · intro hcross hposle
      exact absurd hcross (by omega)
  | succ m ih =>
    intro pos a p2 h
    simp only [readBytesN] at h
    split at h
    next hlt =>
      cases hby : bytes[pos]? with
      | some b =>
        simp only [hby] at h
        obtain ⟨r1, pr, hrec, hpure⟩ := ebind_ok_elim h
        injection hpure with h'
        have ha := congrArg Prod.fst h'
        have hp := congrArg Prod.snd h'
        simp at ha hp
        have hmono := readBytesN_mono m (pos + 1) hrec
        have hihn := ih (pos + 1) r1 pr hrec
        constructor
        · intro hple
          have hlt2 : pos < len2 := by omega
          simp only [readBytesN]
          rw [if_pos hlt2]
          simp only [hby]
          rw [hihn.1 (by omega)]
          simp only [ebind]
          rw [ha, hp]
        · intro hcross hposle
          by_cases hlt2 : pos < len2
          · simp only [readBytesN]
            rw [if_pos hlt2]
            simp only [hby]
            rw [hihn.2 (by omega) (by omega)]
            rfl
          · simp only [readBytesN]
            rw [if_neg hlt2]
      | none =>
        simp only [hby] at h
        exact absurd h (by simp)
    next hge => exact absurd h (by simp)

/-- Helper for C6: a successful event body strictly advances the cursor. -/
theorem parseBody_mono {bytes : List Nat} {len pos st dt : Nat} {ev : Event}
    {p2 : Nat} (h : parseBody bytes len pos st dt = Except.ok (ev, p2)) :
    pos < p2 := by
  unfold parseBody at h
  split at h
  next hcv =>
    split at h
    next h1b =>
      obtain ⟨a, p, hrb, hF⟩ := ebind_ok_elim h
      have hp : p = pos + 1 := (readByte_ok_elim hrb).2.1
      simp only [] at hF
      injection hF with h'
      have hq := congrArg Prod.snd h'
      simp at hq
      omega
    next h1b =>
      obtain ⟨a, p, hrb, hF⟩ := ebind_ok_elim h
      have hp : p = pos + 1 := (readByte_ok_elim hrb).2.1
      simp only [] at hF
      obtain ⟨a2, p2b, hrb2, hF2⟩ := ebind_ok_elim hF
      have hp2 : p2b = p + 1 := (readByte_ok_elim hrb2).2.1
      simp only [] at hF2
      injection hF2 with h'
      have hq := congrArg Prod.snd h'
      simp at hq
      omega
  next hcv =>
    split at h
    next hmeta =>
      obtain ⟨a, p, hrb, hF⟩ := ebind_ok_elim h
      have hp : p = pos + 1 := (readByte_ok_elim hrb).2.1
      simp only [] at hF
      obtain ⟨a2, p2b, hv, hF2⟩ := ebind_ok_elim hF
      have hm2 := readVarint_mono hv
      simp only [] at hF2
      obtain ⟨a3, p3, hbn, hF3⟩ := ebind_ok_elim hF2
      have hm3 := readBytesN_mono a2 p2b hbn
      simp only [] at hF3
      injection hF3 with h'
      have hq := congrArg Prod.snd h'
      simp at hq
      omega
    next hmeta =>
      split at h
      next hsys =>
        obtain ⟨a, p, hv, hF⟩ := ebind_ok_elim h
        have hm1 := readVarint_mono hv
        simp only [] at hF
        obtain ⟨a2, p2b, hbn, hF2⟩ := ebind_ok_elim hF
        have hm2 := readBytesN_mono a p hbn
        simp only [] at hF2
        injection hF2 with h'
        have hq := congrArg Prod.snd h'
        simp at hq
        omega
      next hsys => exact absurd h (by simp)

/-- Helper for C6: an event body under a narrower declared length. -/
theorem parseBody_narrows {bytes : List Nat} {len len2 : Nat} (hle : len2 ≤ len)
    (pos st dt : Nat) :
    Narrows pos len2 (parseBody bytes len pos st dt)
      (parseBody bytes len2 pos st dt) := by
  unfold parseBody
  by_cases hcv : 128 ≤ st ∧ st ≤ 239
  · rw [if_pos hcv, if_pos hcv]
    by_cases h1b : st / 16 = 12 ∨ st / 16 = 13
    · rw [if_pos h1b, if_pos h1b]
      apply narrows_ebind (narrows_readByte hle)
      · intro a p b q hrb hF
        simp only [] at hF
        injection hF with h'
        have hq := congrArg Prod.snd h'
        simp at hq
        omega
      · intro a p hrb
        exact narrows_ok_self _ p
    · rw [if_neg h1b, if_neg h1b]
      apply narrows_ebind (narrows_readByte hle)
      · intro a p b q hrb hF
        simp only [] at hF
        obtain ⟨a2, p2, hrb2, hF2⟩ := ebind_ok_elim hF
        have hp2 : p2 = p + 1 := (readByte_ok_elim hrb2).2.1
        simp only [] at hF2
        injection hF2 with h'
        have hq := congrArg Prod.snd h'
        simp at hq
        omega
      · intro a p hrb
        apply narrows_ebind (narrows_readByte hle)
        · intro a2 p2 b q hrb2 hF2
          simp only [] at hF2
          injection hF2 with h'
          have hq := congrArg Prod.snd h'
          simp at hq
          omega
        · intro a2 p2 hrb2
          exact narrows_ok_self _ p2
  · rw [if_neg hcv, if_neg hcv]
    by_cases hmeta : st = 255
    · rw [if_pos hmeta, if_pos hmeta]
      apply narrows_ebind (narrows_readByte hle)
      · intro a p b q hrb hF
        simp only [] at hF
        obtain ⟨a2, p2, hv, hF2⟩ := ebind_ok_elim hF
        have hm2 := readVarint_mono hv
        simp only [] at hF2
        obtain ⟨a3, p3, hbn, hF3⟩ := ebind_ok_elim hF2
        have hm3 := readBytesN_mono a2 p2 hbn
        simp only [] at hF3
        injection hF3 with h'
        have hq := congrArg Prod.snd h'
        simp at hq
        omega
      · intro a p hrb
        apply narrows_ebind (readVarint_narrows hle p)
        · intro a2 p2 b q hv hF2
          simp only [] at hF2
          obtain ⟨a3, p3, hbn, hF3⟩ := ebind_ok_elim hF2
          have hm3 := readBytesN_mono a2 p2 hbn
          simp only [] at hF3
          injection hF3 with h'
          have hq := congrArg Prod.snd h'
          simp at hq
          omega
        · intro a2 p2 hv
          apply narrows_ebind (readBytesN_narrows hle a2 p2)
          · intro a3 p3 b q hbn hF3
            simp only [] at hF3
            injection hF3 with h'
            have hq := congrArg Prod.snd h'
            simp at hq
            omega
          · intro a3 p3 hbn
            exact narrows_ok_self _ p3
    · rw [if_neg hmeta, if_neg hmeta]
      by_cases hsys : st = 240 ∨ st = 247
      · rw [if_pos hsys, if_pos hsys]
        apply narrows_ebind (readVarint_narrows hle pos)
        · intro a p b q hv hF
          simp only [] at hF
          obtain ⟨a2, p2, hbn, hF2⟩ := ebind_ok_elim hF
          have hm2 := readBytesN_mono a p hbn
          simp only [] at hF2
          injection hF2 with h'
          have hq := congrArg Prod.snd h'
          simp at hq
          omega
        · intro a p hv
          apply narrows_ebind (readBytesN_narrows hle a p)
          · intro a2 p2 b q hbn hF2
            simp only [] at hF2
            injection hF2 with h'
            have hq := congrArg Prod.snd h'
            simp at hq
            omega
          · intro a2 p2 hbn
            exact narrows_ok_self _ p2
      · rw [if_neg hsys, if_neg hsys]
        exact narrows_error _ _

/-- Helper for C6: a successful event parse strictly advances the cursor. -/
theorem parseEvent_mono {bytes : List Nat} {len pos : Nat} {run : Option Nat}
    {evr : Event × Nat} {p2 : Nat}
    (h : parseEvent bytes len pos run = Except.ok (evr, p2)) : pos < p2 := by
  unfold parseEvent at h
  obtain ⟨dt, p1, hv, h1⟩ := ebind_ok_elim h
  have hm1 := readVarint_mono hv
  simp only [] at h1
  obtain ⟨b, pb, hrb, h2⟩ := ebind_ok_elim h1
  have hpb : pb = p1 + 1 := (readByte_ok_elim hrb).2.1
  simp only [] at h2
  split at h2
  next h128 =>
    obtain ⟨ev, p3, hpbd, h3⟩ := ebind_ok_elim h2
    have hm3 := parseBody_mono hpbd
    simp only [] at h3
    injection h3 with h'
    have hq := congrArg Prod.snd h'
    simp at hq
    omega
  next h128 =>
    cases run with
    | none => exact absurd h2 (by simp)
    | some st =>
      simp only [] at h2
      obtain ⟨ev, p3, hpbd, h3⟩ := ebind_ok_elim h2
      have hm3 := parseBody_mono hpbd
      injection h3 with h'
      have hq := congrArg Prod.snd h'
      simp at hq
      omega

/-- Helper for C6: an event parse under a narrower declared length yields
the same event when the event ends inside the narrower boundary, and fails
with TrackOverrun when the event crosses it. -/
theorem parseEvent_narrows {bytes : List Nat} {len len2 : Nat}
    (hle : len2 ≤ len) (pos : Nat) (run : Option Nat) :
    Narrows pos len2 (parseEvent bytes len pos run)
      (parseEvent bytes len2 pos run) := by
  unfold parseEvent
  apply narrows_ebind (readVarint_narrows hle pos)
  · intro a p b q hv hF
    simp only [] at hF
    obtain ⟨a2, p2, hrb, hF2⟩ := ebind_ok_elim hF
    have hp2 : p2 = p + 1 := (readByte_ok_elim hrb).2.1
    simp only [] at hF2
    split at hF2
    next h128 =>
      obtain ⟨a3, p3, hpbd, hF3⟩ := ebind_ok_elim hF2
      have hm3 := parseBody_mono hpbd
      simp only [] at hF3
      injection hF3 with h'
      have hq := congrArg Prod.snd h'
      simp at hq
      omega
    next h128 =>
      cases run with
      | none => exact absurd hF2 (by simp)
      | some st =>
        simp only [] at hF2
        obtain ⟨a3, p3, hpbd, hF3⟩ := ebind_ok_elim hF2
        have hm3 := parseBody_mono hpbd
        injection hF3 with h'
        have hq := congrArg Prod.snd h'
        simp at hq
        omega
  · intro a p hv
    apply narrows_ebind (narrows_readByte hle)
    · intro a2 p2 b q hrb hF2
      simp only [] at hF2
      split at hF2
      next h128 =>
        obtain ⟨a3, p3, hpbd, hF3⟩ := ebind_ok_elim hF2
        have hm3 := parseBody_mono hpbd
        simp only [] at hF3
        injection hF3 with h'
        have hq := congrArg Prod.snd h'
        simp at hq
        omega
      next h128 =>
        cases run with
        | none => exact absurd hF2 (by simp)
        | some st =>
          simp only [] at hF2
          obtain ⟨a3, p3, hpbd, hF3⟩ := ebind_ok_elim hF2
          have hm3 := parseBody_mono hpbd
          injection hF3 with h'
          have hq := congrArg Prod.snd h'
          simp at hq
          have hp2 : p2 = p + 1 := (readByte_ok_elim hrb).2.1
          omega
    · intro a2 p2 hrb
      have hp2 : p2 = p + 1 := (readByte_ok_elim hrb).2.1
      simp only []
      by_cases h128 : 128 ≤ a2
      · rw [if_pos h128, if_pos h128]
        apply narrows_ebind (parseBody_narrows hle p2 a2 a)
        · intro a3 p3 b q hpbd hF3
          simp only [] at hF3
          injection hF3 with h'
          have hq := congrArg Prod.snd h'
          simp at hq
          omega
        · intro a3 p3 hpbd
          exact narrows_ok_self _ p3
      · rw [if_neg h128, if_neg h128]
        cases run with
        | none => exact narrows_error _ _
        | some st =>
          apply narrows_ebind
            (narrows_mono_pos (parseBody_narrows hle p st a) (by omega))
          · intro a3 p3 b q hpbd hF3
            have hm3 := parseBody_mono hpbd
            simp only [] at hF3
            injection hF3 with h'
            have hq := congrArg Prod.snd h'
            simp at hq
            omega
          · intro a3 p3 hpbd
            exact narrows_ok_self _ p3

/-- Helper for C6: when the full-length decode of a track succeeds with
event end positions ps, truncating the declared length strictly inside an
event makes the loop fail with TrackOverrun. -/
theorem read_mtrk_go_trunc {bytes : List Nat} {L len2 : Nat} (hlt : len2 < L) :
    ∀ (fuel pos : Nat) (run : Option Nat) (ps : List Nat) (f : Nat),
      trackEnds bytes L pos run fuel = some ps →
      pos < len2 → len2 ∉ ps → len2 - pos < f →
      read_mtrk_go bytes len2 pos run f =
        Except.error DecodeError.TrackOverrun := by
  have hle : len2 ≤ L := le_of_lt hlt
  intro fuel
  induction fuel with
  | zero =>
    intro pos run ps f hte hpos hnotin hf
    have hpL : pos < L := by omega
    simp only [trackEnds, if_pos hpL] at hte
    exact absurd hte (by simp)
  | succ g ih =>
    intro pos run ps f hte hpos hnotin hf
    have hpL : pos < L := by omega
    simp only [trackEnds, if_pos hpL] at hte
    cases hpe : parseEvent bytes L pos run with
    | error e =>
      simp only [hpe] at hte
      exact absurd hte (by simp)
    | ok r =>
      obtain ⟨er, p1⟩ := r
      simp only [hpe] at hte
      cases hte2 : trackEnds bytes L p1 (some er.2) g with
      | none =>
        simp only [hte2] at hte
        exact absurd hte (by simp)
      | some ps2 =>
        simp only [hte2] at hte
        injection hte with hps
        have hmono := parseEvent_mono hpe
        have hnarrow := parseEvent_narrows hle pos run er p1 hpe
        cases f with
        | zero => omega
        | succ f2 =>
          simp only [read_mtrk_go, if_pos hpos]
          by_cases hp1 : p1 ≤ len2
          · have hne : p1 ≠ len2 := by
              intro hcontr
              apply hnotin
              rw [← hps, hcontr]
              exact List.mem_cons_self _ _
            have hsm := hnarrow.1 hp1
            simp only [hsm]
            have hrec := ih p1 (some er.2) ps2 f2 hte2 (by omega)
              (fun hmem => hnotin (by rw [← hps]; exact List.mem_cons_of_mem _ hmem))
              (by omega)
            simp only [hrec]
          · have hsm := hnarrow.2 (by omega) (by omega)
            simp only [hsm]

/-- C6: when the payload bytes decode completely under the declared length
L with event end positions ps, any shorter declared length that is neither
zero nor one of the event boundaries (so the last event of the truncated
chunk is incomplete) makes read_mtrk fail with TrackOverrun, the error
propagates unchanged through read_notes, and no note interval at all is
emitted for the truncated decode. -/
theorem C6_track_overrun :
    ∀ (bytes : List Nat) (L len2 : Nat) (ps : List Nat),
      trackEnds bytes L 0 none (L + 1) = some ps →
      len2 < L → 0 < len2 → len2 ∉ ps →
      read_mtrk bytes len2 = Except.error DecodeError.TrackOverrun ∧
      read_notes bytes len2 = Except.error DecodeError.TrackOverrun := by
  intro bytes L len2 ps hte hlt hpos hnotin
  have h1 : read_mtrk bytes len2 = Except.error DecodeError.TrackOverrun :=
    read_mtrk_go_trunc hlt (L + 1) 0 none ps (len2 + 1) hte hpos hnotin (by omega)
  refine ⟨h1, ?_⟩
  simp only [read_notes, h1]

/-- Witness for C6: the two-event track 00 90 3C 40 60 3E 50 has event
boundaries 4 and 7; the declared length 5 cuts the second event after its
delta-time, and both read_mtrk and read_notes fail with TrackOverrun. -/
theorem C6_track_overrun_witness :
    read_mtrk [0, 144, 60, 64, 96, 62, 80] 5 =
      Except.error DecodeError.TrackOverrun ∧
    read_notes [0, 144, 60, 64, 96, 62, 80] 5 =
      Except.error DecodeError.TrackOverrun :=
  C6_track_overrun [0, 144, 60, 64, 96, 62, 80] 7 5 [4, 7]
    (by decide) (by decide) (by decide) (by decide)

end Midi
